import Mathlib

/-!
# Verification of the subset-selection module

Shallow embedding of `src/selection/feature_selection.py`: exhaustive search,
forward selection and backward elimination over caller-supplied `train_model`
and `score_model` callbacks.

Modelling conventions:
* The opaque model value is a type parameter `μ`; the float score is a type
  parameter `α` with a linear order (only comparisons of scores are ever
  performed by the code).
* Python lists of variable names become `List String`; the Python `set` built
  by forward/backward selection is modelled by `dedupFirst`, which fixes the
  (unspecified) CPython set iteration order to first-occurrence order.
* The `assert` in `exhaustive_search` is modelled by returning `Option`:
  `none` is an assertion failure.
-/

universe u v w

variable {μ : Type u} {α : Type v} [LinearOrder α]

/-- The `Step` named tuple of the source: `score`, the removed variable
(`None` for the "no removal" candidate; field renamed from `variable`, which
is reserved in Lean) and the trained model. -/
structure Step (μ : Type u) (α : Type v) where
  score : α
  var : Option String
  model : μ

/-- The comparison key used by `steps.sort(key=lambda x: x[0])`: compare steps
by score alone. -/
def stepLE (a b : Step μ α) : Prop :=
  a.score ≤ b.score

instance : DecidableRel (stepLE : Step μ α → Step μ α → Prop) :=
  fun a b => inferInstanceAs (Decidable (a.score ≤ b.score))

instance : IsTotal (Step μ α) stepLE :=
  ⟨fun a b => le_total a.score b.score⟩

instance : IsTrans (Step μ α) stepLE :=
  ⟨fun _ _ _ h1 h2 => le_trans h1 h2⟩

/-- The `ExhaustiveSearchResult` record of the source. -/
structure ExhaustiveSearchResult (μ : Type u) (α : Type v) where
  n : Nat
  vars : List String
  score : α
  model : μ

/-- `itertools.combinations l n`: every `n`-element combination of `l`,
keeping input order inside each combination, enumerated in lexicographic
order of input positions. -/
def combinations {β : Type u} : Nat → List β → List (List β)
  | 0, _ => [[]]
  | _ + 1, [] => []
  | n + 1, x :: xs => ((combinations n xs).map (x :: ·)) ++ combinations (n + 1) xs

/-- The inner loop of `exhaustive_search` for one size `n`: fold over the
combinations, training and scoring each, keeping the running best.  The
running best is replaced only on a strictly smaller score
(`best['score'] > subset_score`). -/
def bestOfSize (train_model : List String → μ) (score_model : μ → List String → α) (n : Nat) :
    List (List String) → Option (ExhaustiveSearchResult μ α) →
      Option (ExhaustiveSearchResult μ α)
  | [], best => best
  | subset :: rest, best =>
    let subset_model := train_model subset
    let subset_score := score_model subset_model subset
    bestOfSize train_model score_model n rest
      (match best with
       | none => some ⟨n, subset, subset_score, subset_model⟩
       | some b =>
         if b.score > subset_score then some ⟨n, subset, subset_score, subset_model⟩
         else some b)

/-- The outer loop of `exhaustive_search` over the sizes
`range(1, len(vars) + 1)`, appending the best record of each size.
`none` models the `assert best is not None` failing. -/
def searchSizes (vars : List String) (train_model : List String → μ)
    (score_model : μ → List String → α) :
    List Nat → List (ExhaustiveSearchResult μ α) →
      Option (List (ExhaustiveSearchResult μ α))
  | [], result => some result
  | nvars :: rest, result =>
    match bestOfSize train_model score_model nvars
        (combinations nvars vars) none with
    | none => none
    | some best => searchSizes vars train_model score_model rest (result ++ [best])

/-- `exhaustive_search(vars, train_model, score_model)`. -/
def exhaustive_search (vars : List String) (train_model : List String → μ)
    (score_model : μ → List String → α) : Option (List (ExhaustiveSearchResult μ α)) :=
  searchSizes vars train_model score_model (List.range' 1 vars.length) []

/-- `bestOfSize`, instrumented to additionally record every variable subset on
which `train_model` (and `score_model`) is invoked, in call order. -/
def bestOfSizeLog (train_model : List String → μ) (score_model : μ → List String → α) (n : Nat) :
    List (List String) → Option (ExhaustiveSearchResult μ α) → List (List String) →
      Option (ExhaustiveSearchResult μ α) × List (List String)
  | [], best, log => (best, log)
  | subset :: rest, best, log =>
    let subset_model := train_model subset
    let subset_score := score_model subset_model subset
    bestOfSizeLog train_model score_model n rest
      (match best with
       | none => some ⟨n, subset, subset_score, subset_model⟩
       | some b =>
         if b.score > subset_score then some ⟨n, subset, subset_score, subset_model⟩
         else some b)
      (log ++ [subset])

/-- `searchSizes`, instrumented with the call log. -/
def searchSizesLog (vars : List String) (train_model : List String → μ)
    (score_model : μ → List String → α) :
    List Nat → List (ExhaustiveSearchResult μ α) → List (List String) →
      Option (List (ExhaustiveSearchResult μ α)) × List (List String)
  | [], result, log => (some result, log)
  | nvars :: rest, result, log =>
    match bestOfSizeLog train_model score_model nvars
        (combinations nvars vars) none log with
    | (none, log') => (none, log')
    | (some best, log') =>
      searchSizesLog vars train_model score_model rest (result ++ [best]) log'

/-- `exhaustive_search`, instrumented with the list of variable subsets it
trains and scores, in call order. -/
def exhaustive_search_traced (vars : List String) (train_model : List String → μ)
    (score_model : μ → List String → α) :
    Option (List (ExhaustiveSearchResult μ α)) × List (List String) :=
  searchSizesLog vars train_model score_model (List.range' 1 vars.length) [] []

/-- Closed form of the subsets evaluated by `exhaustive_search`: all
combinations of each size `1 .. len(vars)`, in loop order. -/
def exhaustiveCallLog (vars : List String) : List (List String) :=
  (List.range' 1 vars.length).flatMap fun n => combinations n vars

/-- `set(vars)` as used by forward selection and backward elimination.
CPython set iteration order is unspecified; the embedding fixes it to the
order of first occurrence in the input list, which realises one admissible
iteration order and keeps the embedding deterministic. -/
def dedupFirst : List String → List String
  | [] => []
  | x :: xs => x :: (dedupFirst xs).filter fun y => decide (y ≠ x)

/-- One round's candidate list, common to `forward_selection` and
`backward_elimination`: first the "no removal" step, then one step per
variable of `best_vars` (in iteration order), trained and scored on the
current set with that variable removed. -/
def roundSteps (train_model : List String → μ) (score_model : μ → List String → α)
    (best_vars : List String) (best_model : μ) (best_score : α) : List (Step μ α) :=
  ⟨best_score, none, best_model⟩ ::
    best_vars.map fun remove_var =>
      let step_vars := best_vars.erase remove_var
      let step_model := train_model step_vars
      let step_score := score_model step_model step_vars
      ⟨step_score, some remove_var, step_model⟩

/-- The `while len(best_variables) > 1` loop of `forward_selection`: build the
candidate steps, stable-sort them by score (Python's `list.sort` is stable;
`List.insertionSort` is a stable sort), take the first, stop if it removes
nothing, otherwise remove that variable and continue.  The final `else`
branch is unreachable (every removal candidate is a member of `best_vars`);
it makes the decreasing measure explicit. -/
def forwardLoop (train_model : List String → μ) (score_model : μ → List String → α)
    (best_vars : List String) (best_model : μ) (best_score : α) : μ × List String :=
  if 1 < best_vars.length then
    match List.insertionSort stepLE (roundSteps train_model score_model best_vars best_model best_score) with
    | [] => (best_model, best_vars)
    | st :: _ =>
      match st.var with
      | none => (st.model, best_vars)
      | some remove_var =>
        if hmem : remove_var ∈ best_vars then
          forwardLoop train_model score_model (best_vars.erase remove_var) st.model st.score
        else (st.model, best_vars)
  else (best_model, best_vars)
termination_by best_vars.length
decreasing_by
  have h1 := List.length_erase_of_mem hmem
  have h2 := List.length_pos_of_mem hmem
  omega

/-- The `while len(best_variables) > 1` loop of `backward_elimination`; the
source loop body is byte-for-byte identical to the one in
`forward_selection`. -/
def backwardLoop (train_model : List String → μ) (score_model : μ → List String → α)
    (best_vars : List String) (best_model : μ) (best_score : α) : μ × List String :=
  if 1 < best_vars.length then
    match List.insertionSort stepLE (roundSteps train_model score_model best_vars best_model best_score) with
    | [] => (best_model, best_vars)
    | st :: _ =>
      match st.var with
      | none => (st.model, best_vars)
      | some remove_var =>
        if hmem : remove_var ∈ best_vars then
          backwardLoop train_model score_model (best_vars.erase remove_var) st.model st.score
        else (st.model, best_vars)
  else (best_model, best_vars)
termination_by best_vars.length
decreasing_by
  have h1 := List.length_erase_of_mem hmem
  have h2 := List.length_pos_of_mem hmem
  omega

/-- `forward_selection(variables, train_model, score_model)` (the Python
parameter `variables` is rendered `vars`; the token is reserved in Lean). -/
def forward_selection (vars : List String) (train_model : List String → μ)
    (score_model : μ → List String → α) : μ × List String :=
  let best_vars := dedupFirst vars
  let best_model := train_model best_vars
  let best_score := score_model best_model best_vars
  forwardLoop train_model score_model best_vars best_model best_score

/-- `backward_elimination(variables, train_model, score_model)`. -/
def backward_elimination (vars : List String) (train_model : List String → μ)
    (score_model : μ → List String → α) : μ × List String :=
  let best_vars := dedupFirst vars
  let best_model := train_model best_vars
  let best_score := score_model best_model best_vars
  backwardLoop train_model score_model best_vars best_model best_score

/-- Observable record of one run of the shared selection loop:
the final model and variable list, the accepted score at the start of the
loop and after each round, and every variable subset passed to the
callbacks inside the loop. -/
structure RunResult (μ : Type u) (α : Type v) where
  best_model : μ
  best_vars : List String
  roundScores : List α
  callLog : List (List String)

/-- The selection loop, instrumented: same control flow as `forwardLoop` and
`backwardLoop`, additionally recording the accepted scores round by round and
the subsets trained/scored in each round. -/
def selectionRun (train_model : List String → μ) (score_model : μ → List String → α)
    (best_vars : List String) (best_model : μ) (best_score : α) : RunResult μ α :=
  if 1 < best_vars.length then
    match List.insertionSort stepLE (roundSteps train_model score_model best_vars best_model best_score) with
    | [] => ⟨best_model, best_vars, [best_score], best_vars.map fun v => best_vars.erase v⟩
    | st :: _ =>
      match st.var with
      | none => ⟨st.model, best_vars, [best_score], best_vars.map fun v => best_vars.erase v⟩
      | some remove_var =>
        if hmem : remove_var ∈ best_vars then
          let r := selectionRun train_model score_model (best_vars.erase remove_var) st.model st.score
          ⟨r.best_model, r.best_vars, best_score :: r.roundScores,
            (best_vars.map fun v => best_vars.erase v) ++ r.callLog⟩
        else ⟨st.model, best_vars, [best_score], best_vars.map fun v => best_vars.erase v⟩
  else ⟨best_model, best_vars, [best_score], []⟩
termination_by best_vars.length
decreasing_by
  have h1 := List.length_erase_of_mem hmem
  have h2 := List.length_pos_of_mem hmem
  omega

/-- Fuel-indexed version of the selection loop, structurally recursive so that
concrete runs can be evaluated by the kernel; any fuel of at least
`best_vars.length` computes the same result as `backwardLoop`. -/
def backwardLoopFuel (train_model : List String → μ) (score_model : μ → List String → α) :
    Nat → List String → μ → α → μ × List String
  | 0, best_vars, best_model, _ => (best_model, best_vars)
  | fuel + 1, best_vars, best_model, best_score =>
    if 1 < best_vars.length then
      match List.insertionSort stepLE (roundSteps train_model score_model best_vars best_model best_score) with
      | [] => (best_model, best_vars)
      | st :: _ =>
        match st.var with
        | none => (st.model, best_vars)
        | some remove_var =>
          if remove_var ∈ best_vars then
            backwardLoopFuel train_model score_model fuel (best_vars.erase remove_var) st.model st.score
          else (st.model, best_vars)
    else (best_model, best_vars)

/-- Correspondence between steps of two runs of the loop that use different
trainers (and hence different model types): equal score and equal removed
variable.  The sort and the control flow of the loop inspect only these two
fields, never the model. -/
def stepRel {μ' : Type w} (a : Step μ α) (b : Step μ' α) : Prop :=
  a.score = b.score ∧ a.var = b.var

/-- Number of executions of the `while len(best_variables) > 1` loop body,
with the same control flow as `forwardLoop`/`backwardLoop`: a round that
accepts a removal counts one and continues; a final round that exits (via the
"no removal" break, or through an unreachable branch) counts one; when the
loop condition fails no round runs. -/
def selectionRounds (train_model : List String → μ) (score_model : μ → List String → α)
    (best_vars : List String) (best_model : μ) (best_score : α) : Nat :=
  if 1 < best_vars.length then
    match List.insertionSort stepLE (roundSteps train_model score_model best_vars best_model best_score) with
    | [] => 1
    | st :: _ =>
      match st.var with
      | none => 1
      | some remove_var =>
        if hmem : remove_var ∈ best_vars then
          1 + selectionRounds train_model score_model (best_vars.erase remove_var) st.model st.score
        else 1
  else 0
termination_by best_vars.length
decreasing_by
  have h1 := List.length_erase_of_mem hmem
  omega

/-- Trainer of the reference scenario in
`src/tests/test_feature_selection.py`: `'Model-' + ''.join(variables)`. -/
def trainTest (vars : List String) : String :=
  "Model-" ++ String.join vars

/-- Per-variable weights of the reference scenario:
`a=4, b=2, c=-2, d=3, e=-1`. -/
def weightTest (v : String) : Int :=
  match v with
  | "a" => 4
  | "b" => 2
  | "c" => -2
  | "d" => 3
  | "e" => -1
  | _ => 0

/-- Scorer of the reference scenario:
`-sum(maps[v] for v in variables)`; it ignores the model, so it is stated for
an arbitrary model type. -/
def scoreTest {μ : Type u} (_model : μ) (vars : List String) : Int :=
  -(vars.map weightTest).sum

/-- Trivial trainer fixture used for concrete instances. -/
def unitTrain (_vars : List String) : Unit :=
  ()

/-- Constant-zero scorer fixture used for concrete instances. -/
def zeroScore (_model : Unit) (_vars : List String) : Int :=
  0

/-- Order-insensitive scorer fixture (it depends only on the size of the
subset): a set of two or more variables scores 1, smaller sets score 0, so
the two removal candidates of a two-variable set tie. -/
def pairTieScore (_model : Unit) (vars : List String) : Int :=
  if 2 ≤ vars.length then 1 else 0

/-! ## Lemmas about `combinations` -/

lemma combinations_length_of_mem {β : Type u} {n : Nat} {l c : List β}
    (h : c ∈ combinations n l) : c.length = n := by
  induction l generalizing n c with
  | nil =>
    cases n with
    | zero => simp only [combinations, List.mem_singleton] at h; simp [h]
    | succ n => simp [combinations] at h
  | cons x xs ih =>
    cases n with
    | zero => simp only [combinations, List.mem_singleton] at h; simp [h]
    | succ n =>
      simp only [combinations, List.mem_append, List.mem_map] at h
      rcases h with ⟨c', hc', rfl⟩ | h
      · simp [ih hc']
      · exact ih h

lemma combinations_subset {β : Type u} {n : Nat} {l c : List β}
    (h : c ∈ combinations n l) : ∀ a ∈ c, a ∈ l := by
  induction l generalizing n c with
  | nil =>
    cases n with
    | zero => simp only [combinations, List.mem_singleton] at h; simp [h]
    | succ n => simp [combinations] at h
  | cons x xs ih =>
    cases n with
    | zero => simp only [combinations, List.mem_singleton] at h; simp [h]
    | succ n =>
      simp only [combinations, List.mem_append, List.mem_map] at h
      rcases h with ⟨c', hc', rfl⟩ | h
      · intro a ha
        rcases List.mem_cons.mp ha with rfl | ha'
        · exact List.mem_cons_self a xs
        · exact List.mem_cons_of_mem x (ih hc' a ha')
      · exact fun a ha => List.mem_cons_of_mem x (ih h a ha)

lemma length_combinations {β : Type u} :
    ∀ (n : Nat) (l : List β), (combinations n l).length = Nat.choose l.length n := by
  intro n l
  induction l generalizing n with
  | nil => cases n <;> simp [combinations]
  | cons x xs ih =>
    cases n with
    | zero => simp [combinations]
    | succ n =>
      simp only [combinations, List.length_append, List.length_map, ih,
        List.length_cons, Nat.choose_succ_succ]

lemma combinations_ne_nil {β : Type u} {n : Nat} {l : List β} (h : n ≤ l.length) :
    combinations n l ≠ [] := by
  intro hnil
  have hlen := length_combinations n l
  rw [hnil] at hlen
  have := Nat.choose_pos h
  simp at hlen
  omega

lemma combinations_sorted_lex {β : Type u} {r : β → β → Prop} :
    ∀ (l : List β), l.Pairwise r → ∀ n, List.Sorted (List.Lex r) (combinations n l) := by
  intro l
  induction l with
  | nil =>
    intro _ n
    cases n with
    | zero => simp [combinations]
    | succ n => simp [combinations]
  | cons x xs ih =>
    intro h n
    cases n with
    | zero => simp [combinations]
    | succ n =>
      have hx : ∀ y ∈ xs, r x y := (List.pairwise_cons.mp h).1
      have hxs : xs.Pairwise r := (List.pairwise_cons.mp h).2
      simp only [combinations, List.Sorted, List.pairwise_append]
      refine ⟨?_, ih hxs (n + 1), ?_⟩
      · exact (ih hxs n).map _ fun a b hab => List.Lex.cons hab
      · intro a ha b hb
        obtain ⟨a', _, rfl⟩ := List.mem_map.mp ha
        have hblen : b.length = n + 1 := combinations_length_of_mem hb
        cases b with
        | nil => simp at hblen
        | cons y b' =>
          exact List.Lex.rel (hx y (combinations_subset hb y (List.mem_cons_self y b')))

/-! ## Specification of `bestOfSize` -/

lemma bestOfSize_acc_spec (t : List String → μ) (s : μ → List String → α) (n : Nat) :
    ∀ (combos : List (List String)) (b : ExhaustiveSearchResult μ α),
      b.n = n → b.model = t b.vars → b.score = s b.model b.vars →
      ∃ r, bestOfSize t s n combos (some b) = some r ∧
        r.n = n ∧ r.model = t r.vars ∧ r.score = s r.model r.vars ∧
        r.score ≤ b.score ∧
        (∀ c ∈ combos, r.score ≤ s (t c) c) ∧
        (r = b ∨ ∃ j, ∃ hj : j < combos.length,
          r.vars = combos[j] ∧ r.score < b.score ∧
          ∀ m, ∀ hm : m < combos.length, m < j → r.score < s (t combos[m]) combos[m]) := by
  intro combos
  induction combos with
  | nil =>
    intro b h1 h2 h3
    exact ⟨b, rfl, h1, h2, h3, le_refl _, by simp, Or.inl rfl⟩
  | cons c rest ih =>
    intro b h1 h2 h3
    by_cases hlt : s (t c) c < b.score
    · have step : bestOfSize t s n (c :: rest) (some b)
          = bestOfSize t s n rest (some ⟨n, c, s (t c) c, t c⟩) := by
        simp only [bestOfSize, gt_iff_lt, if_pos hlt]
      obtain ⟨r, hr, hc1, hc2, hc3, hle, hall, hdisj⟩ :=
        ih ⟨n, c, s (t c) c, t c⟩ rfl rfl rfl
      refine ⟨r, by rw [step]; exact hr, hc1, hc2, hc3, le_trans hle (le_of_lt hlt), ?_, ?_⟩
      · intro c' hc'
        rcases List.mem_cons.mp hc' with rfl | hmem
        · exact hle
        · exact hall c' hmem
      · rcases hdisj with rfl | ⟨j, hj, hvars, hlt', hpre⟩
        · right
          refine ⟨0, by simp, by simp, hlt, ?_⟩
          intro m hm hmlt
          omega
        · right
          refine ⟨j + 1, by simp; omega, by simpa using hvars, lt_trans hlt' hlt, ?_⟩
          intro m hm hmlt
          cases m with
          | zero => simpa using hlt'
          | succ m =>
            have := hpre m (by simpa using hm) (by omega)
            simpa using this
    · have hge : b.score ≤ s (t c) c := not_lt.mp hlt
      have step : bestOfSize t s n (c :: rest) (some b) = bestOfSize t s n rest (some b) := by
        simp only [bestOfSize, gt_iff_lt, if_neg hlt]
      obtain ⟨r, hr, hc1, hc2, hc3, hle, hall, hdisj⟩ := ih b h1 h2 h3
      refine ⟨r, by rw [step]; exact hr, hc1, hc2, hc3, hle, ?_, ?_⟩
      · intro c' hc'
        rcases List.mem_cons.mp hc' with rfl | hmem
        · exact le_trans hle hge
        · exact hall c' hmem
      · rcases hdisj with rfl | ⟨j, hj, hvars, hlt', hpre⟩
        · exact Or.inl rfl
        · right
          refine ⟨j + 1, by simp; omega, by simpa using hvars, hlt', ?_⟩
          intro m hm hmlt
          cases m with
          | zero => simpa using lt_of_lt_of_le hlt' hge
          | succ m =>
            have := hpre m (by simpa using hm) (by omega)
            simpa using this

lemma bestOfSize_cons_spec (t : List String → μ) (s : μ → List String → α) (n : Nat)
    (c : List String) (rest : List (List String)) :
    ∃ r, bestOfSize t s n (c :: rest) none = some r ∧
      r.n = n ∧ r.model = t r.vars ∧ r.score = s r.model r.vars ∧
      (∀ c' ∈ c :: rest, r.score ≤ s (t c') c') ∧
      ∃ j, ∃ hj : j < (c :: rest).length,
        r.vars = (c :: rest)[j] ∧
        ∀ m, ∀ hm : m < (c :: rest).length, m < j →
          r.score < s (t ((c :: rest)[m])) ((c :: rest)[m]) := by
  have step : bestOfSize t s n (c :: rest) none
      = bestOfSize t s n rest (some ⟨n, c, s (t c) c, t c⟩) := by
    simp only [bestOfSize]
  obtain ⟨r, hr, hc1, hc2, hc3, hle, hall, hdisj⟩ :=
    bestOfSize_acc_spec t s n rest ⟨n, c, s (t c) c, t c⟩ rfl rfl rfl
  refine ⟨r, by rw [step]; exact hr, hc1, hc2, hc3, ?_, ?_⟩
  · intro c' hc'
    rcases List.mem_cons.mp hc' with rfl | hmem
    · exact hle
    · exact hall c' hmem
  · rcases hdisj with rfl | ⟨j, hj, hvars, hlt', hpre⟩
    · refine ⟨0, by simp, by simp, ?_⟩
      intro m hm hmlt
      omega
    · refine ⟨j + 1, by simp; omega, by simpa using hvars, ?_⟩
      intro m hm hmlt
      cases m with
      | zero => simpa using hlt'
      | succ m =>
        have := hpre m (by simpa using hm) (by omega)
        simpa using this

/-! ## Specification of `searchSizes` and `exhaustive_search` -/

lemma searchSizes_spec (v : List String) (t : List String → μ) (s : μ → List String → α) :
    ∀ (ns : List Nat) (acc : List (ExhaustiveSearchResult μ α)),
      (∀ n ∈ ns, combinations n v ≠ []) →
      ∃ tail, searchSizes v t s ns acc = some (acc ++ tail) ∧
        tail.length = ns.length ∧
        ∀ i, ∀ hi : i < ns.length, ∀ hi' : i < tail.length,
          bestOfSize t s ns[i] (combinations ns[i] v) none = some tail[i] := by
  intro ns
  induction ns with
  | nil =>
    intro acc _
    exact ⟨[], by simp [searchSizes], rfl, by intro i hi hi'; simp at hi⟩
  | cons n rest ih =>
    intro acc hall
    have hne := hall n (List.mem_cons_self n rest)
    obtain ⟨c, cs, hc⟩ : ∃ c cs, combinations n v = c :: cs := by
      cases hcc : combinations n v with
      | nil => exact absurd hcc hne
      | cons c cs => exact ⟨c, cs, rfl⟩
    obtain ⟨b, hb, -, -, -, -, -⟩ := bestOfSize_cons_spec t s n c cs
    have hb' : bestOfSize t s n (combinations n v) none = some b := by rw [hc]; exact hb
    have step : searchSizes v t s (n :: rest) acc = searchSizes v t s rest (acc ++ [b]) := by
      simp only [searchSizes, hb']
    obtain ⟨tail, htail, hlen, hidx⟩ :=
      ih (acc ++ [b]) fun m hm => hall m (List.mem_cons_of_mem n hm)
    refine ⟨b :: tail, ?_, by simp [hlen], ?_⟩
    · rw [step, htail]; simp
    · intro i hi hi'
      cases i with
      | zero => simpa using hb'
      | succ i => simpa using hidx i (by simpa using hi) (by simpa using hi')

lemma exhaustive_search_spec (v : List String) (t : List String → μ)
    (s : μ → List String → α) :
    ∃ results, exhaustive_search v t s = some results ∧ results.length = v.length ∧
      ∀ i, ∀ hi : i < results.length,
        bestOfSize t s (i + 1) (combinations (i + 1) v) none = some results[i] := by
  have hall : ∀ n ∈ List.range' 1 v.length, combinations n v ≠ [] := by
    intro n hn
    have := List.mem_range'_1.mp hn
    exact combinations_ne_nil (by omega)
  obtain ⟨tail, htail, hlen, hidx⟩ := searchSizes_spec v t s (List.range' 1 v.length) [] hall
  simp only [List.length_range'] at hlen
  refine ⟨tail, by simpa [exhaustive_search] using htail, hlen, ?_⟩
  intro i hi
  have hi2 : i < (List.range' 1 v.length).length := by simpa using hlen ▸ hi
  have := hidx i hi2 hi
  simpa [List.getElem_range'_1, Nat.add_comm] using this

/-! ## The instrumented exhaustive search agrees with the plain one -/

lemma bestOfSizeLog_eq (t : List String → μ) (s : μ → List String → α) (n : Nat) :
    ∀ (combos : List (List String)) (best : Option (ExhaustiveSearchResult μ α))
      (log : List (List String)),
      bestOfSizeLog t s n combos best log = (bestOfSize t s n combos best, log ++ combos) := by
  intro combos
  induction combos with
  | nil => intro best log; simp [bestOfSizeLog, bestOfSize]
  | cons c rest ih =>
    intro best log
    simp only [bestOfSizeLog, bestOfSize]
    rw [ih]
    simp

lemma searchSizesLog_eq (v : List String) (t : List String → μ) (s : μ → List String → α) :
    ∀ (ns : List Nat) (result : List (ExhaustiveSearchResult μ α))
      (log : List (List String)),
      (∀ n ∈ ns, combinations n v ≠ []) →
      searchSizesLog v t s ns result log
        = (searchSizes v t s ns result, log ++ ns.flatMap fun n => combinations n v) := by
  intro ns
  induction ns with
  | nil => intro result log _; simp [searchSizesLog, searchSizes]
  | cons n rest ih =>
    intro result log hall
    have hne := hall n (List.mem_cons_self n rest)
    obtain ⟨c, cs, hc⟩ : ∃ c cs, combinations n v = c :: cs := by
      cases hcc : combinations n v with
      | nil => exact absurd hcc hne
      | cons c cs => exact ⟨c, cs, rfl⟩
    obtain ⟨b, hb, -, -, -, -, -⟩ := bestOfSize_cons_spec t s n c cs
    have hb' : bestOfSize t s n (combinations n v) none = some b := by rw [hc]; exact hb
    simp only [searchSizesLog, searchSizes, bestOfSizeLog_eq, hb']
    rw [ih (result ++ [b]) (log ++ combinations n v)
      fun m hm => hall m (List.mem_cons_of_mem n hm)]
    simp

lemma exhaustive_search_traced_eq (v : List String) (t : List String → μ)
    (s : μ → List String → α) :
    exhaustive_search_traced v t s = (exhaustive_search v t s, exhaustiveCallLog v) := by
  have hall : ∀ n ∈ List.range' 1 v.length, combinations n v ≠ [] := by
    intro n hn
    have := List.mem_range'_1.mp hn
    exact combinations_ne_nil (by omega)
  simp only [exhaustive_search_traced, exhaustive_search, exhaustiveCallLog]
  simpa using searchSizesLog_eq v t s (List.range' 1 v.length) [] [] hall

/-! ## Counting the evaluated combinations -/

lemma length_exhaustiveCallLog (v : List String) :
    (exhaustiveCallLog v).length = 2 ^ v.length - 1 := by
  simp only [exhaustiveCallLog, List.length_flatMap]
  have h1 : (List.range' 1 v.length).map (List.length ∘ fun n => combinations n v)
      = (List.range v.length).map fun i => Nat.choose v.length (i + 1) := by
    rw [List.range'_eq_map_range]
    simp only [List.map_map]
    refine List.map_congr_left fun i _ => ?_
    simp [length_combinations, Nat.add_comm]
  rw [h1]
  have h2 : ((List.range v.length).map fun i => Nat.choose v.length (i + 1)).sum
      = ∑ i ∈ Finset.range v.length, Nat.choose v.length (i + 1) := rfl
  have h3 := Nat.sum_range_choose v.length
  have h4 : ∑ i ∈ Finset.range (v.length + 1), Nat.choose v.length i
      = (∑ i ∈ Finset.range v.length, Nat.choose v.length (i + 1)) + Nat.choose v.length 0 :=
    Finset.sum_range_succ' _ _
  simp only [Nat.choose_zero_right] at h4
  have h5 : 0 < 2 ^ v.length := Nat.pos_pow_of_pos _ (by omega)
  omega

/-! ## Lemmas about `dedupFirst` -/

lemma mem_dedupFirst {a : String} : ∀ {l : List String}, a ∈ dedupFirst l ↔ a ∈ l := by
  intro l
  induction l with
  | nil => simp [dedupFirst]
  | cons x xs ih =>
    simp only [dedupFirst, List.mem_cons, List.mem_filter, decide_eq_true_eq]
    constructor
    · rintro (rfl | ⟨h1, _⟩)
      · exact Or.inl rfl
      · exact Or.inr (ih.mp h1)
    · rintro (rfl | h)
      · exact Or.inl rfl
      · by_cases hax : a = x
        · exact Or.inl hax
        · exact Or.inr ⟨ih.mpr h, hax⟩

lemma nodup_dedupFirst : ∀ (l : List String), (dedupFirst l).Nodup := by
  intro l
  induction l with
  | nil => simp [dedupFirst]
  | cons x xs ih =>
    simp only [dedupFirst, List.nodup_cons]
    refine ⟨?_, ih.filter _⟩
    intro hx
    have := List.of_mem_filter hx
    simp at this

lemma dedupFirst_eq_self_of_nodup : ∀ {l : List String}, l.Nodup → dedupFirst l = l := by
  intro l
  induction l with
  | nil => intro _; rfl
  | cons x xs ih =>
    intro h
    have h1 : x ∉ xs := (List.nodup_cons.mp h).1
    have h2 := (List.nodup_cons.mp h).2
    simp only [dedupFirst, ih h2, List.cons.injEq, true_and]
    rw [List.filter_eq_self]
    intro a ha
    simp only [decide_eq_true_eq]
    rintro rfl
    exact h1 ha

lemma dedupFirst_idem (l : List String) : dedupFirst (dedupFirst l) = dedupFirst l :=
  dedupFirst_eq_self_of_nodup (nodup_dedupFirst l)

lemma length_dedupFirst (l : List String) : (dedupFirst l).length = l.toFinset.card := by
  have h1 : (dedupFirst l).toFinset = l.toFinset := by
    ext a
    simp [List.mem_toFinset, mem_dedupFirst]
  have h2 : (dedupFirst l).toFinset.card = (dedupFirst l).length := by
    rw [List.card_toFinset, (nodup_dedupFirst l).dedup]
  rw [← h1, h2]

/-! ## Lemmas about the candidate steps and their stable sort -/

lemma mem_roundSteps {t : List String → μ} {s : μ → List String → α} {bv : List String}
    {bm : μ} {bs : α} {x : Step μ α} :
    x ∈ roundSteps t s bv bm bs ↔
      x = ⟨bs, none, bm⟩ ∨
        ∃ v ∈ bv, x = ⟨s (t (bv.erase v)) (bv.erase v), some v, t (bv.erase v)⟩ := by
  simp only [roundSteps, List.mem_cons, List.mem_map]
  constructor
  · rintro (rfl | ⟨v, hv, rfl⟩)
    · exact Or.inl rfl
    · exact Or.inr ⟨v, hv, rfl⟩
  · rintro (rfl | ⟨v, hv, rfl⟩)
    · exact Or.inl rfl
    · exact Or.inr ⟨v, hv, rfl⟩

lemma sortedSteps_head_le {l : List (Step μ α)} {st : Step μ α} {rest : List (Step μ α)}
    (h : List.insertionSort stepLE l = st :: rest) :
    ∀ x ∈ l, st.score ≤ x.score := by
  intro x hx
  have hs := List.sorted_insertionSort stepLE l
  rw [h] at hs
  have hx' : x ∈ st :: rest := by
    rw [← h]
    exact (List.mem_insertionSort stepLE).mpr hx
  rcases List.mem_cons.mp hx' with rfl | hmem
  · exact le_refl _
  · exact List.rel_of_sorted_cons hs x hmem

/-- When the current score is at most the score of every removal candidate,
stability of the sort puts the "no removal" step first. -/
lemma sort_roundSteps_of_min {t : List String → μ} {s : μ → List String → α}
    {bv : List String} {bm : μ} {bs : α}
    (h : ∀ v ∈ bv, bs ≤ s (t (bv.erase v)) (bv.erase v)) :
    ∃ tl, List.insertionSort stepLE (roundSteps t s bv bm bs)
      = (⟨bs, none, bm⟩ : Step μ α) :: tl := by
  have key : List.insertionSort stepLE (roundSteps t s bv bm bs)
      = (⟨bs, none, bm⟩ : Step μ α) ::
        List.insertionSort stepLE (bv.map fun remove_var =>
          let step_vars := bv.erase remove_var
          let step_model := t step_vars
          let step_score := s step_model step_vars
          (⟨step_score, some remove_var, step_model⟩ : Step μ α)) := by
    simp only [roundSteps]
    refine List.insertionSort_cons stepLE ?_
    intro b hb
    obtain ⟨v, hv, rfl⟩ := List.mem_map.mp hb
    exact h v hv
  exact ⟨_, key⟩

/-! ## The two loops project from the instrumented run -/

lemma backwardLoop_eq_selectionRun (t : List String → μ) (s : μ → List String → α)
    (bv : List String) (bm : μ) (bs : α) :
    backwardLoop t s bv bm bs
      = ((selectionRun t s bv bm bs).best_model, (selectionRun t s bv bm bs).best_vars) := by
  induction bv, bm, bs using backwardLoop.induct t s with
  | case1 bv bm bs hlen hsort =>
    rw [backwardLoop.eq_def, selectionRun.eq_def]
    simp only [if_pos hlen, hsort]
  | case2 bv bm bs hlen st tail hsort hvar =>
    rw [backwardLoop.eq_def, selectionRun.eq_def]
    simp only [if_pos hlen, hsort, hvar]
  | case3 bv bm bs hlen st tail hsort rv hvar hmem ih =>
    rw [backwardLoop.eq_def, selectionRun.eq_def]
    simp only [if_pos hlen, hsort, hvar, dif_pos hmem]
    exact ih
  | case4 bv bm bs hlen st tail hsort rv hvar hmem =>
    rw [backwardLoop.eq_def, selectionRun.eq_def]
    simp only [if_pos hlen, hsort, hvar, dif_neg hmem]
  | case5 bv bm bs hlen =>
    rw [backwardLoop.eq_def, selectionRun.eq_def]
    simp only [if_neg hlen]

lemma forwardLoop_eq_selectionRun (t : List String → μ) (s : μ → List String → α)
    (bv : List String) (bm : μ) (bs : α) :
    forwardLoop t s bv bm bs
      = ((selectionRun t s bv bm bs).best_model, (selectionRun t s bv bm bs).best_vars) := by
  induction bv, bm, bs using forwardLoop.induct t s with
  | case1 bv bm bs hlen hsort =>
    rw [forwardLoop.eq_def, selectionRun.eq_def]
    simp only [if_pos hlen, hsort]
  | case2 bv bm bs hlen st tail hsort hvar =>
    rw [forwardLoop.eq_def, selectionRun.eq_def]
    simp only [if_pos hlen, hsort, hvar]
  | case3 bv bm bs hlen st tail hsort rv hvar hmem ih =>
    rw [forwardLoop.eq_def, selectionRun.eq_def]
    simp only [if_pos hlen, hsort, hvar, dif_pos hmem]
    exact ih
  | case4 bv bm bs hlen st tail hsort rv hvar hmem =>
    rw [forwardLoop.eq_def, selectionRun.eq_def]
    simp only [if_pos hlen, hsort, hvar, dif_neg hmem]
  | case5 bv bm bs hlen =>
    rw [forwardLoop.eq_def, selectionRun.eq_def]
    simp only [if_neg hlen]

lemma forwardLoop_eq_backwardLoop (t : List String → μ) (s : μ → List String → α)
    (bv : List String) (bm : μ) (bs : α) :
    forwardLoop t s bv bm bs = backwardLoop t s bv bm bs := by
  rw [forwardLoop_eq_selectionRun, backwardLoop_eq_selectionRun]

/-! ## Facts about the instrumented run -/

lemma selectionRun_roundScores_cons (t : List String → μ) (s : μ → List String → α)
    (bv : List String) (bm : μ) (bs : α) :
    ∃ tl, (selectionRun t s bv bm bs).roundScores = bs :: tl := by
  induction bv, bm, bs using selectionRun.induct t s with
  | case1 bv bm bs hlen hsort =>
    rw [selectionRun.eq_def]
    simp only [if_pos hlen, hsort]
    exact ⟨[], rfl⟩
  | case2 bv bm bs hlen st tail hsort hvar =>
    rw [selectionRun.eq_def]
    simp only [if_pos hlen, hsort, hvar]
    exact ⟨[], rfl⟩
  | case3 bv bm bs hlen st tail hsort rv hvar hmem ih =>
    rw [selectionRun.eq_def]
    simp only [if_pos hlen, hsort, hvar, dif_pos hmem]
    exact ⟨_, rfl⟩
  | case4 bv bm bs hlen st tail hsort rv hvar hmem =>
    rw [selectionRun.eq_def]
    simp only [if_pos hlen, hsort, hvar, dif_neg hmem]
    exact ⟨[], rfl⟩
  | case5 bv bm bs hlen =>
    rw [selectionRun.eq_def]
    simp only [if_neg hlen]
    exact ⟨[], rfl⟩

lemma selectionRun_scores_chain (t : List String → μ) (s : μ → List String → α)
    (bv : List String) (bm : μ) (bs : α) :
    List.Chain' (fun a b => b ≤ a) (selectionRun t s bv bm bs).roundScores := by
  induction bv, bm, bs using selectionRun.induct t s with
  | case1 bv bm bs hlen hsort =>
    rw [selectionRun.eq_def]
    simp only [if_pos hlen, hsort]
    exact List.chain'_singleton bs
  | case2 bv bm bs hlen st tail hsort hvar =>
    rw [selectionRun.eq_def]
    simp only [if_pos hlen, hsort, hvar]
    exact List.chain'_singleton bs
  | case3 bv bm bs hlen st tail hsort rv hvar hmem ih =>
    rw [selectionRun.eq_def]
    simp only [if_pos hlen, hsort, hvar, dif_pos hmem]
    obtain ⟨tl, htl⟩ := selectionRun_roundScores_cons t s (bv.erase rv) st.model st.score
    rw [htl]
    rw [List.chain'_cons]
    constructor
    · have := sortedSteps_head_le hsort ⟨bs, none, bm⟩ (by rw [mem_roundSteps]; exact Or.inl rfl)
      exact this
    · rw [← htl]
      exact ih
  | case4 bv bm bs hlen st tail hsort rv hvar hmem =>
    rw [selectionRun.eq_def]
    simp only [if_pos hlen, hsort, hvar, dif_neg hmem]
    exact List.chain'_singleton bs
  | case5 bv bm bs hlen =>
    rw [selectionRun.eq_def]
    simp only [if_neg hlen]
    exact List.chain'_singleton bs

lemma selectionRun_scores_length (t : List String → μ) (s : μ → List String → α)
    (bv : List String) (bm : μ) (bs : α) :
    (selectionRun t s bv bm bs).roundScores.length ≤ max bv.length 1 := by
  induction bv, bm, bs using selectionRun.induct t s with
  | case1 bv bm bs hlen hsort =>
    rw [selectionRun.eq_def]
    simp only [if_pos hlen, hsort, List.length_cons, List.length_nil]
    omega
  | case2 bv bm bs hlen st tail hsort hvar =>
    rw [selectionRun.eq_def]
    simp only [if_pos hlen, hsort, hvar, List.length_cons, List.length_nil]
    omega
  | case3 bv bm bs hlen st tail hsort rv hvar hmem ih =>
    rw [selectionRun.eq_def]
    simp only [if_pos hlen, hsort, hvar, dif_pos hmem]
    have herase := List.length_erase_of_mem hmem
    simp only [List.length_cons]
    simp only [herase] at ih
    omega
  | case4 bv bm bs hlen st tail hsort rv hvar hmem =>
    rw [selectionRun.eq_def]
    simp only [if_pos hlen, hsort, hvar, dif_neg hmem, List.length_cons, List.length_nil]
    omega
  | case5 bv bm bs hlen =>
    rw [selectionRun.eq_def]
    simp only [if_neg hlen, List.length_cons, List.length_nil]
    omega

lemma selectionRun_callLog_ne_nil (t : List String → μ) (s : μ → List String → α)
    (bv : List String) (bm : μ) (bs : α) :
    ∀ c ∈ (selectionRun t s bv bm bs).callLog, c ≠ [] := by
  induction bv, bm, bs using selectionRun.induct t s with
  | case1 bv bm bs hlen hsort =>
    rw [selectionRun.eq_def]
    simp only [if_pos hlen, hsort]
    intro c hc
    obtain ⟨v, hv, rfl⟩ := List.mem_map.mp hc
    have := List.length_erase_of_mem hv
    intro hnil
    rw [hnil] at this
    simp at this
    omega
  | case2 bv bm bs hlen st tail hsort hvar =>
    rw [selectionRun.eq_def]
    simp only [if_pos hlen, hsort, hvar]
    intro c hc
    obtain ⟨v, hv, rfl⟩ := List.mem_map.mp hc
    have := List.length_erase_of_mem hv
    intro hnil
    rw [hnil] at this
    simp at this
    omega
  | case3 bv bm bs hlen st tail hsort rv hvar hmem ih =>
    rw [selectionRun.eq_def]
    simp only [if_pos hlen, hsort, hvar, dif_pos hmem]
    intro c hc
    rcases List.mem_append.mp hc with hc1 | hc2
    · obtain ⟨v, hv, rfl⟩ := List.mem_map.mp hc1
      have := List.length_erase_of_mem hv
      intro hnil
      rw [hnil] at this
      simp at this
      omega
    · exact ih c hc2
  | case4 bv bm bs hlen st tail hsort rv hvar hmem =>
    rw [selectionRun.eq_def]
    simp only [if_pos hlen, hsort, hvar, dif_neg hmem]
    intro c hc
    obtain ⟨v, hv, rfl⟩ := List.mem_map.mp hc
    have := List.length_erase_of_mem hv
    intro hnil
    rw [hnil] at this
    simp at this
    omega
  | case5 bv bm bs hlen =>
    rw [selectionRun.eq_def]
    simp only [if_neg hlen]
    intro c hc
    simp at hc

/-! ## Fuel version computes the loop -/

lemma backwardLoop_eq_fuel (t : List String → μ) (s : μ → List String → α)
    (bv : List String) (bm : μ) (bs : α) :
    ∀ N, bv.length ≤ N → backwardLoop t s bv bm bs = backwardLoopFuel t s N bv bm bs := by
  induction bv, bm, bs using backwardLoop.induct t s with
  | case1 bv bm bs hlen hsort =>
    intro N hN
    cases N with
    | zero => exfalso; omega
    | succ N =>
      rw [backwardLoop.eq_def]
      simp only [backwardLoopFuel, if_pos hlen, hsort]
  | case2 bv bm bs hlen st tail hsort hvar =>
    intro N hN
    cases N with
    | zero => exfalso; omega
    | succ N =>
      rw [backwardLoop.eq_def]
      simp only [backwardLoopFuel, if_pos hlen, hsort, hvar]
  | case3 bv bm bs hlen st tail hsort rv hvar hmem ih =>
    intro N hN
    cases N with
    | zero => exfalso; omega
    | succ N =>
      rw [backwardLoop.eq_def]
      simp only [backwardLoopFuel, if_pos hlen, hsort, hvar, dif_pos hmem, if_pos hmem]
      exact ih N (by have := List.length_erase_of_mem hmem; omega)
  | case4 bv bm bs hlen st tail hsort rv hvar hmem =>
    intro N hN
    cases N with
    | zero => exfalso; omega
    | succ N =>
      rw [backwardLoop.eq_def]
      simp only [backwardLoopFuel, if_pos hlen, hsort, hvar, dif_neg hmem, if_neg hmem]
  | case5 bv bm bs hlen =>
    intro N hN
    cases N with
    | zero =>
      rw [backwardLoop.eq_def]
      simp only [backwardLoopFuel, if_neg hlen]
    | succ N =>
      rw [backwardLoop.eq_def]
      simp only [backwardLoopFuel, if_neg hlen]

lemma pairwise_indexOf_of_nodup {l : List String} (h : l.Nodup) :
    l.Pairwise fun x y => l.indexOf x < l.indexOf y := by
  rw [List.pairwise_iff_getElem]
  intro i j hi hj hij
  rw [List.indexOf_getElem h i hi, List.indexOf_getElem h j hj]
  exact hij

/-! ## The loop's variable choices do not depend on the trainer
when the scorer ignores the model -/

lemma stepRel_orderedInsert {μ' : Type w} {a : Step μ α} {a' : Step μ' α}
    {l : List (Step μ α)} {l' : List (Step μ' α)}
    (ha : stepRel a a') (hl : List.Forall₂ stepRel l l') :
    List.Forall₂ stepRel (List.orderedInsert stepLE a l) (List.orderedInsert stepLE a' l') := by
  induction hl with
  | nil => exact List.Forall₂.cons ha List.Forall₂.nil
  | @cons b b' tl tl' hb htl ih =>
    simp only [List.orderedInsert]
    by_cases hle : stepLE a b
    · have hle' : stepLE a' b' := by
        show a'.score ≤ b'.score
        rw [← ha.1, ← hb.1]
        exact hle
      rw [if_pos hle, if_pos hle']
      exact List.Forall₂.cons ha (List.Forall₂.cons hb htl)
    · have hle' : ¬ stepLE a' b' := by
        intro hc
        apply hle
        show a.score ≤ b.score
        rw [ha.1, hb.1]
        exact hc
      rw [if_neg hle, if_neg hle']
      exact List.Forall₂.cons hb ih

lemma stepRel_insertionSort {μ' : Type w} {l : List (Step μ α)} {l' : List (Step μ' α)}
    (h : List.Forall₂ stepRel l l') :
    List.Forall₂ stepRel (List.insertionSort stepLE l) (List.insertionSort stepLE l') := by
  induction h with
  | nil => exact List.Forall₂.nil
  | cons ha htl ih =>
    simp only [List.insertionSort]
    exact stepRel_orderedInsert ha ih

lemma stepRel_roundSteps {μ' : Type w} (t : List String → μ) (t' : List String → μ')
    (s : μ → List String → α) (s' : μ' → List String → α)
    (hs : ∀ (m : μ) (m' : μ') (vs : List String), s m vs = s' m' vs)
    (bv : List String) (bm : μ) (bm' : μ') (bs : α) :
    List.Forall₂ stepRel (roundSteps t s bv bm bs) (roundSteps t' s' bv bm' bs) := by
  simp only [roundSteps]
  refine List.Forall₂.cons ⟨rfl, rfl⟩ ?_
  suffices hgen : ∀ l : List String,
      List.Forall₂ stepRel
        (l.map fun remove_var =>
          (⟨s (t (bv.erase remove_var)) (bv.erase remove_var), some remove_var,
            t (bv.erase remove_var)⟩ : Step μ α))
        (l.map fun remove_var =>
          (⟨s' (t' (bv.erase remove_var)) (bv.erase remove_var), some remove_var,
            t' (bv.erase remove_var)⟩ : Step μ' α)) by
    exact hgen bv
  intro l
  induction l with
  | nil => exact List.Forall₂.nil
  | cons x xs ih => exact List.Forall₂.cons ⟨hs _ _ _, rfl⟩ ih

/-- Runs of the loop with different trainers but the same model-blind scoring
behaviour choose the same variables: the sort and the control flow inspect
only scores and removed-variable names. -/
lemma backwardLoop_vars_blind {μ' : Type w} (t : List String → μ) (t' : List String → μ')
    (s : μ → List String → α) (s' : μ' → List String → α)
    (hs : ∀ (m : μ) (m' : μ') (vs : List String), s m vs = s' m' vs)
    (bv : List String) (bm : μ) (bs : α) :
    ∀ bm' : μ', (backwardLoop t s bv bm bs).2 = (backwardLoop t' s' bv bm' bs).2 := by
  induction bv, bm, bs using backwardLoop.induct t s with
  | case1 bv bm bs hlen hsort =>
    intro bm'
    have hF := stepRel_insertionSort (stepRel_roundSteps t t' s s' hs bv bm bm' bs)
    rw [hsort] at hF
    have hsort' : List.insertionSort stepLE (roundSteps t' s' bv bm' bs) = [] :=
      List.forall₂_nil_left_iff.mp hF
    rw [backwardLoop.eq_def, backwardLoop.eq_def]
    simp only [if_pos hlen, hsort, hsort']
  | case2 bv bm bs hlen st tail hsort hvar =>
    intro bm'
    have hF := stepRel_insertionSort (stepRel_roundSteps t t' s s' hs bv bm bm' bs)
    rw [hsort] at hF
    obtain ⟨st', tail', hrel, hF', hsort'⟩ := List.forall₂_cons_left_iff.mp hF
    have hvar' : st'.var = none := by rw [← hrel.2, hvar]
    rw [backwardLoop.eq_def, backwardLoop.eq_def]
    simp only [if_pos hlen, hsort, hsort', hvar, hvar']
  | case3 bv bm bs hlen st tail hsort rv hvar hmem ih =>
    intro bm'
    have hF := stepRel_insertionSort (stepRel_roundSteps t t' s s' hs bv bm bm' bs)
    rw [hsort] at hF
    obtain ⟨st', tail', hrel, hF', hsort'⟩ := List.forall₂_cons_left_iff.mp hF
    have hvar' : st'.var = some rv := by rw [← hrel.2, hvar]
    rw [backwardLoop.eq_def, backwardLoop.eq_def]
    simp only [if_pos hlen, hsort, hsort', hvar, hvar', dif_pos hmem]
    rw [← hrel.1]
    exact ih st'.model
  | case4 bv bm bs hlen st tail hsort rv hvar hmem =>
    intro bm'
    have hF := stepRel_insertionSort (stepRel_roundSteps t t' s s' hs bv bm bm' bs)
    rw [hsort] at hF
    obtain ⟨st', tail', hrel, hF', hsort'⟩ := List.forall₂_cons_left_iff.mp hF
    have hvar' : st'.var = some rv := by rw [← hrel.2, hvar]
    rw [backwardLoop.eq_def, backwardLoop.eq_def]
    simp only [if_pos hlen, hsort, hsort', hvar, hvar', dif_neg hmem]
  | case5 bv bm bs hlen =>
    intro bm'
    rw [backwardLoop.eq_def, backwardLoop.eq_def]
    simp only [if_neg hlen]

/-- Invariant of the loop: if the current model is the trainer's output on the
current variable list, the returned model is the trainer's output on the
returned variable list (the unreachable not-a-member branch never runs: every
removal candidate at the head of the sort is a member of `best_vars`). -/
lemma backwardLoop_model_trained (t : List String → μ) (s : μ → List String → α)
    (bv : List String) (bm : μ) (bs : α) :
    bm = t bv → (backwardLoop t s bv bm bs).1 = t (backwardLoop t s bv bm bs).2 := by
  induction bv, bm, bs using backwardLoop.induct t s with
  | case1 bv bm bs hlen hsort =>
    intro hbm
    rw [backwardLoop.eq_def]
    simp only [if_pos hlen, hsort]
    exact hbm
  | case2 bv bm bs hlen st tail hsort hvar =>
    intro hbm
    have hmem_st : st ∈ roundSteps t s bv bm bs :=
      (List.mem_insertionSort stepLE).mp (by rw [hsort]; exact List.mem_cons_self st tail)
    rw [backwardLoop.eq_def]
    simp only [if_pos hlen, hsort, hvar]
    rcases mem_roundSteps.mp hmem_st with h1 | ⟨v, hv, h2⟩
    · subst h1
      exact hbm
    · rw [h2] at hvar
      exact Option.noConfusion hvar
  | case3 bv bm bs hlen st tail hsort rv hvar hmem ih =>
    intro hbm
    have hmem_st : st ∈ roundSteps t s bv bm bs :=
      (List.mem_insertionSort stepLE).mp (by rw [hsort]; exact List.mem_cons_self st tail)
    rcases mem_roundSteps.mp hmem_st with h1 | ⟨v, hv, h2⟩
    · rw [h1] at hvar
      exact Option.noConfusion hvar
    · have hv_eq : v = rv := by
        rw [h2] at hvar
        exact Option.some.inj hvar
      subst hv_eq
      rw [backwardLoop.eq_def]
      simp only [if_pos hlen, hsort, hvar, dif_pos hmem]
      apply ih
      rw [h2]
  | case4 bv bm bs hlen st tail hsort rv hvar hmem =>
    intro hbm
    exfalso
    have hmem_st : st ∈ roundSteps t s bv bm bs :=
      (List.mem_insertionSort stepLE).mp (by rw [hsort]; exact List.mem_cons_self st tail)
    rcases mem_roundSteps.mp hmem_st with h1 | ⟨v, hv, h2⟩
    · rw [h1] at hvar
      exact Option.noConfusion hvar
    · have hv_eq : v = rv := by
        rw [h2] at hvar
        exact Option.some.inj hvar
      exact hmem (hv_eq ▸ hv)
  | case5 bv bm bs hlen =>
    intro hbm
    rw [backwardLoop.eq_def]
    simp only [if_neg hlen]
    exact hbm

/-! ## Bounding the number of loop rounds -/

lemma selectionRounds_le (t : List String → μ) (s : μ → List String → α)
    (bv : List String) (bm : μ) (bs : α) :
    selectionRounds t s bv bm bs ≤ bv.length - 1 := by
  induction bv, bm, bs using selectionRounds.induct t s with
  | case1 bv bm bs hlen hsort =>
    rw [selectionRounds.eq_def]
    simp only [if_pos hlen, hsort]
    omega
  | case2 bv bm bs hlen st tail hsort hvar =>
    rw [selectionRounds.eq_def]
    simp only [if_pos hlen, hsort, hvar]
    omega
  | case3 bv bm bs hlen st tail hsort rv hvar hmem ih =>
    rw [selectionRounds.eq_def]
    simp only [if_pos hlen, hsort, hvar, dif_pos hmem]
    have herase := List.length_erase_of_mem hmem
    omega
  | case4 bv bm bs hlen st tail hsort rv hvar hmem =>
    rw [selectionRounds.eq_def]
    simp only [if_pos hlen, hsort, hvar, dif_neg hmem]
    omega
  | case5 bv bm bs hlen =>
    rw [selectionRounds.eq_def]
    simp only [if_neg hlen]
    omega

lemma selectionRun_scores_le_rounds (t : List String → μ) (s : μ → List String → α)
    (bv : List String) (bm : μ) (bs : α) :
    (selectionRun t s bv bm bs).roundScores.length ≤ selectionRounds t s bv bm bs + 1 := by
  induction bv, bm, bs using selectionRounds.induct t s with
  | case1 bv bm bs hlen hsort =>
    rw [selectionRun.eq_def, selectionRounds.eq_def]
    simp only [if_pos hlen, hsort, List.length_cons, List.length_nil]
    omega
  | case2 bv bm bs hlen st tail hsort hvar =>
    rw [selectionRun.eq_def, selectionRounds.eq_def]
    simp only [if_pos hlen, hsort, hvar, List.length_cons, List.length_nil]
    omega
  | case3 bv bm bs hlen st tail hsort rv hvar hmem ih =>
    rw [selectionRun.eq_def, selectionRounds.eq_def]
    simp only [if_pos hlen, hsort, hvar, dif_pos hmem, List.length_cons]
    omega
  | case4 bv bm bs hlen st tail hsort rv hvar hmem =>
    rw [selectionRun.eq_def, selectionRounds.eq_def]
    simp only [if_pos hlen, hsort, hvar, dif_neg hmem, List.length_cons, List.length_nil]
    omega
  | case5 bv bm bs hlen =>
    rw [selectionRun.eq_def, selectionRounds.eq_def]
    simp only [if_neg hlen, List.length_cons, List.length_nil]
    omega

/-! ## Claims -/

/-- C1: for every non-empty variable list and every trainer/scorer pair,
`exhaustive_search` returns one record per size; for every size `i + 1` the
returned score is at most the score of every evaluated combination of that
size, the record holds the model trained on its own variable list and that
model's score, and the returned combination is the earliest one in
enumeration order attaining the minimum: every strictly earlier combination
scores strictly worse (the running best is replaced only on a strictly
smaller score). -/
theorem exhaustive_search_per_size_optimal (vars : List String) (t : List String → μ)
    (s : μ → List String → α) (hne : vars ≠ []) :
    ∃ results, exhaustive_search vars t s = some results ∧ results ≠ [] ∧
      results.length = vars.length ∧
      ∀ i, ∀ hi : i < results.length,
        (∀ c ∈ combinations (i + 1) vars, results[i].score ≤ s (t c) c) ∧
        results[i].model = t results[i].vars ∧
        results[i].score = s (t results[i].vars) results[i].vars ∧
        ∃ j, ∃ hj : j < (combinations (i + 1) vars).length,
          results[i].vars = (combinations (i + 1) vars)[j] ∧
          ∀ m, ∀ hm : m < (combinations (i + 1) vars).length, m < j →
            results[i].score < s (t ((combinations (i + 1) vars)[m]))
              ((combinations (i + 1) vars)[m]) := by
  obtain ⟨results, hres, hlen, hidx⟩ := exhaustive_search_spec vars t s
  refine ⟨results, hres, ?_, hlen, ?_⟩
  · intro h0
    rw [h0] at hlen
    simp only [List.length_nil] at hlen
    exact hne (List.eq_nil_of_length_eq_zero hlen.symm)
  · intro i hi
    have hbest := hidx i hi
    cases hcc : combinations (i + 1) vars with
    | nil =>
      rw [hcc] at hbest
      simp [bestOfSize] at hbest
    | cons c cs =>
      obtain ⟨r, hr, hn, hmodel, hscore, hall, j, hj, hvarsj, hpre⟩ :=
        bestOfSize_cons_spec t s (i + 1) c cs
      rw [hcc, hr] at hbest
      have hreq : r = results[i] := Option.some.inj hbest
      subst hreq
      refine ⟨hall, hmodel, ?_, j, hj, hvarsj, hpre⟩
      rw [← hmodel]
      exact hscore

/-- Witness for C1 at the concrete input `["a", "b"]` with the trivial
trainer and the constant-zero scorer. -/
theorem exhaustive_search_per_size_optimal_witness :
    (["a", "b"] : List String) ≠ [] ∧
    (∃ results, exhaustive_search ["a", "b"] unitTrain zeroScore = some results ∧
      results ≠ [] ∧
      results.length = (["a", "b"] : List String).length ∧
      ∀ i, ∀ hi : i < results.length,
        (∀ c ∈ combinations (i + 1) ["a", "b"], results[i].score ≤ zeroScore (unitTrain c) c) ∧
        results[i].model = unitTrain results[i].vars ∧
        results[i].score = zeroScore (unitTrain results[i].vars) results[i].vars ∧
        ∃ j, ∃ hj : j < (combinations (i + 1) ["a", "b"]).length,
          results[i].vars = (combinations (i + 1) ["a", "b"])[j] ∧
          ∀ m, ∀ hm : m < (combinations (i + 1) ["a", "b"]).length, m < j →
            results[i].score < zeroScore (unitTrain ((combinations (i + 1) ["a", "b"])[m]))
              ((combinations (i + 1) ["a", "b"])[m])) :=
  ⟨by decide, exhaustive_search_per_size_optimal ["a", "b"] unitTrain zeroScore (by decide)⟩

/-- C2: for a list of distinct variables, `exhaustive_search` trains and
scores exactly `2 ^ n - 1` combinations (the instrumented run's call log is
the closed-form log, of that length), its plain and instrumented runs agree,
it returns exactly `n` records, one per size `1 .. n` in increasing order of
`n`, each with a variable list of exactly that size; combinations of each
size are enumerated in lexicographic order of input positions (for every
relation ordering the distinct input, in particular the index order). -/
theorem exhaustive_search_complete (vars : List String) (t : List String → μ)
    (s : μ → List String → α) (hnd : vars.Nodup) :
    (exhaustive_search_traced vars t s).2 = exhaustiveCallLog vars ∧
    (exhaustive_search_traced vars t s).2.length = 2 ^ vars.length - 1 ∧
    (exhaustive_search_traced vars t s).1 = exhaustive_search vars t s ∧
    (∃ results, exhaustive_search vars t s = some results ∧
      results.length = vars.length ∧
      ∀ i, ∀ hi : i < results.length,
        results[i].n = i + 1 ∧ results[i].vars.length = i + 1) ∧
    vars.Pairwise (fun x y => vars.indexOf x < vars.indexOf y) ∧
    ∀ (r : String → String → Prop), vars.Pairwise r →
      ∀ k, List.Sorted (List.Lex r) (combinations k vars) := by
  have htr := exhaustive_search_traced_eq vars t s
  refine ⟨?_, ?_, ?_, ?_, pairwise_indexOf_of_nodup hnd,
    fun r hr k => combinations_sorted_lex vars hr k⟩
  · rw [htr]
  · rw [htr]
    exact length_exhaustiveCallLog vars
  · rw [htr]
  · obtain ⟨results, hres, hlen, hidx⟩ := exhaustive_search_spec vars t s
    refine ⟨results, hres, hlen, ?_⟩
    intro i hi
    have hbest := hidx i hi
    cases hcc : combinations (i + 1) vars with
    | nil =>
      rw [hcc] at hbest
      simp [bestOfSize] at hbest
    | cons c cs =>
      obtain ⟨r, hr, hn, hmodel, hscore, hall, j, hj, hvarsj, hpre⟩ :=
        bestOfSize_cons_spec t s (i + 1) c cs
      rw [hcc, hr] at hbest
      have hreq : r = results[i] := Option.some.inj hbest
      subst hreq
      refine ⟨hn, ?_⟩
      rw [hvarsj]
      exact combinations_length_of_mem (by rw [hcc]; exact List.getElem_mem hj)

/-- Witness for C2 at the concrete input `["a", "b"]` with the trivial
trainer and the constant-zero scorer. -/
theorem exhaustive_search_complete_witness :
    (["a", "b"] : List String).Nodup ∧
    ((exhaustive_search_traced ["a", "b"] unitTrain zeroScore).2
        = exhaustiveCallLog ["a", "b"] ∧
      (exhaustive_search_traced ["a", "b"] unitTrain zeroScore).2.length
        = 2 ^ (["a", "b"] : List String).length - 1 ∧
      (exhaustive_search_traced ["a", "b"] unitTrain zeroScore).1
        = exhaustive_search ["a", "b"] unitTrain zeroScore ∧
      (∃ results, exhaustive_search ["a", "b"] unitTrain zeroScore = some results ∧
        results.length = (["a", "b"] : List String).length ∧
        ∀ i, ∀ hi : i < results.length,
          results[i].n = i + 1 ∧ results[i].vars.length = i + 1) ∧
      (["a", "b"] : List String).Pairwise
        (fun x y => (["a", "b"] : List String).indexOf x
          < (["a", "b"] : List String).indexOf y) ∧
      ∀ (r : String → String → Prop), (["a", "b"] : List String).Pairwise r →
        ∀ k, List.Sorted (List.Lex r) (combinations k ["a", "b"])) :=
  ⟨by decide, exhaustive_search_complete ["a", "b"] unitTrain zeroScore (by decide)⟩

/-- C3: `forward_selection` and `backward_elimination` compute the same
function: same best model, same best variable list (hence the same set), at
every input; their loops coincide at every loop state, so they also traverse
the same rounds and round scores (both project from the same instrumented
run, see the theorem for C5). -/
theorem forward_selection_eq_backward_elimination (vars : List String)
    (t : List String → μ) (s : μ → List String → α) :
    forward_selection vars t s = backward_elimination vars t s ∧
    ∀ (bv : List String) (bm : μ) (bs : α),
      forwardLoop t s bv bm bs = backwardLoop t s bv bm bs := by
  refine ⟨?_, forwardLoop_eq_backwardLoop t s⟩
  simp only [forward_selection, backward_elimination]
  exact forwardLoop_eq_backwardLoop t s _ _ _

/-- C4 (amended): called on the empty variable list, `exhaustive_search`
returns normally with the empty result list, for every trainer and scorer:
`range(1, 0 + 1)` is empty, so the per-size loop (and with it the
`assert best is not None`) never executes. -/
theorem exhaustive_search_empty_eq_some_nil (t : List String → μ)
    (s : μ → List String → α) :
    exhaustive_search ([] : List String) t s = some [] :=
  rfl

/-- C4 counterexample: at the concrete empty input with a concrete trainer
and scorer, `exhaustive_search` returns `some []` — it does not fail with an
assertion error (`none` in this embedding), contradicting the claim. -/
theorem exhaustive_search_empty_returns_normally :
    exhaustive_search ([] : List String) unitTrain zeroScore = some [] ∧
    exhaustive_search ([] : List String) unitTrain zeroScore ≠ none := by
  refine ⟨rfl, ?_⟩
  intro h
  rw [show exhaustive_search ([] : List String) unitTrain zeroScore = some [] from rfl] at h
  exact Option.noConfusion h

/-- C5: for every input and callbacks, the accepted score sequence across
rounds of the selection loop is non-increasing (the "no removal" candidate
carrying the previous score is always among the sorted candidates), and both
`forward_selection` and `backward_elimination` are the projections of that
instrumented run at the entry state. -/
theorem selection_scores_nonincreasing (vars : List String) (t : List String → μ)
    (s : μ → List String → α) :
    List.Chain' (fun a b => b ≤ a)
      (selectionRun t s (dedupFirst vars) (t (dedupFirst vars))
        (s (t (dedupFirst vars)) (dedupFirst vars))).roundScores ∧
    forward_selection vars t s
      = ((selectionRun t s (dedupFirst vars) (t (dedupFirst vars))
            (s (t (dedupFirst vars)) (dedupFirst vars))).best_model,
          (selectionRun t s (dedupFirst vars) (t (dedupFirst vars))
            (s (t (dedupFirst vars)) (dedupFirst vars))).best_vars) ∧
    backward_elimination vars t s
      = ((selectionRun t s (dedupFirst vars) (t (dedupFirst vars))
            (s (t (dedupFirst vars)) (dedupFirst vars))).best_model,
          (selectionRun t s (dedupFirst vars) (t (dedupFirst vars))
            (s (t (dedupFirst vars)) (dedupFirst vars))).best_vars) := by
  refine ⟨selectionRun_scores_chain t s _ _ _, ?_, ?_⟩
  · simp only [forward_selection]
    exact forwardLoop_eq_selectionRun t s _ _ _
  · simp only [backward_elimination]
    exact backwardLoop_eq_selectionRun t s _ _ _

/-- C6: in any round (a loop state with more than one variable), if the
current score is at most the score of every single-variable-removal
candidate, the stable sort keeps the "no removal" step (inserted at index 0)
first, so both loops halt immediately and return the current model and
variable list unchanged. -/
theorem selection_stops_on_tie (t : List String → μ) (s : μ → List String → α)
    (bv : List String) (bm : μ) (bs : α) (hlen : 1 < bv.length)
    (h : ∀ v ∈ bv, bs ≤ s (t (bv.erase v)) (bv.erase v)) :
    forwardLoop t s bv bm bs = (bm, bv) ∧ backwardLoop t s bv bm bs = (bm, bv) := by
  obtain ⟨tl, htl⟩ := @sort_roundSteps_of_min μ α _ t s bv bm bs h
  constructor
  · rw [forwardLoop.eq_def]
    simp only [if_pos hlen, htl]
  · rw [backwardLoop.eq_def]
    simp only [if_pos hlen, htl]

/-- Witness for C6 at the concrete loop state `["a", "b"]` with the trivial
trainer and the constant-zero scorer (every candidate ties with the current
score). -/
theorem selection_stops_on_tie_witness :
    (1 < (["a", "b"] : List String).length) ∧
    (∀ v ∈ (["a", "b"] : List String),
      (0 : Int) ≤ zeroScore (unitTrain ((["a", "b"] : List String).erase v))
        ((["a", "b"] : List String).erase v)) ∧
    (forwardLoop unitTrain zeroScore ["a", "b"] () 0 = ((), ["a", "b"]) ∧
      backwardLoop unitTrain zeroScore ["a", "b"] () 0 = ((), ["a", "b"])) :=
  ⟨by decide, by decide,
    selection_stops_on_tie unitTrain zeroScore ["a", "b"] () 0 (by decide) (by decide)⟩

/-- C7: the loop shared by `forward_selection` and `backward_elimination`
executes its body at most `v - 1` times before returning, where `v` is the
number of distinct input variables — counting every round, both those that
remove exactly one variable and the final one that breaks; accordingly the
accepted-score trace is at most one entry longer than the round count. -/
theorem selection_rounds_bound (vars : List String) (t : List String → μ)
    (s : μ → List String → α) :
    selectionRounds t s (dedupFirst vars) (t (dedupFirst vars))
        (s (t (dedupFirst vars)) (dedupFirst vars))
      ≤ vars.toFinset.card - 1 ∧
    (selectionRun t s (dedupFirst vars) (t (dedupFirst vars))
        (s (t (dedupFirst vars)) (dedupFirst vars))).roundScores.length
      ≤ selectionRounds t s (dedupFirst vars) (t (dedupFirst vars))
          (s (t (dedupFirst vars)) (dedupFirst vars)) + 1 := by
  have h1 := selectionRounds_le t s (dedupFirst vars) (t (dedupFirst vars))
    (s (t (dedupFirst vars)) (dedupFirst vars))
  have h2 := length_dedupFirst vars
  exact ⟨by omega, selectionRun_scores_le_rounds t s _ _ _⟩

/-- C8: for a non-empty input, neither entry point ever passes the empty
variable set to the callbacks: the initial training set (the deduplicated
input) is non-empty, and every subset trained and scored inside the loop is
non-empty. -/
theorem selection_never_scores_empty (vars : List String) (t : List String → μ)
    (s : μ → List String → α) (hne : vars ≠ []) :
    dedupFirst vars ≠ [] ∧
    ∀ c ∈ (selectionRun t s (dedupFirst vars) (t (dedupFirst vars))
        (s (t (dedupFirst vars)) (dedupFirst vars))).callLog, c ≠ [] := by
  refine ⟨?_, selectionRun_callLog_ne_nil t s _ _ _⟩
  cases vars with
  | nil => exact absurd rfl hne
  | cons x xs => simp [dedupFirst]

/-- Witness for C8 at the concrete input `["a"]` with the trivial trainer and
the constant-zero scorer. -/
theorem selection_never_scores_empty_witness :
    (["a"] : List String) ≠ [] ∧
    (dedupFirst ["a"] ≠ [] ∧
      ∀ c ∈ (selectionRun unitTrain zeroScore (dedupFirst ["a"])
          (unitTrain (dedupFirst ["a"]))
          (zeroScore (unitTrain (dedupFirst ["a"])) (dedupFirst ["a"]))).callLog, c ≠ []) :=
  ⟨by decide, selection_never_scores_empty ["a"] unitTrain zeroScore (by decide)⟩

/-- C9: on the reference scenario (variables `a..e` with weights
`4, 2, -2, 3, -1` and score the negated weight sum) and for EVERY trainer
over any model type, backward elimination returns the positive-weight subset:
`best_variables` is the list `["a", "b", "d"]`, as a set `{a, b, d}`, and the
returned model is the trainer's output on exactly that list.  (The scorer
ignores the model, so the variable choices cannot depend on the trainer.) -/
theorem backward_elimination_reference (t : List String → μ) :
    (backward_elimination ["a", "b", "c", "d", "e"] t scoreTest).2 = ["a", "b", "d"] ∧
    (backward_elimination ["a", "b", "c", "d", "e"] t scoreTest).2.toFinset
      = ({"a", "b", "d"} : Finset String) ∧
    (backward_elimination ["a", "b", "c", "d", "e"] t scoreTest).1 = t ["a", "b", "d"] := by
  have hconc : backward_elimination ["a", "b", "c", "d", "e"] trainTest scoreTest
      = ("Model-abd", ["a", "b", "d"]) := by
    have h : backward_elimination ["a", "b", "c", "d", "e"] trainTest scoreTest
        = backwardLoopFuel trainTest scoreTest 5 (dedupFirst ["a", "b", "c", "d", "e"])
            (trainTest (dedupFirst ["a", "b", "c", "d", "e"]))
            (scoreTest (trainTest (dedupFirst ["a", "b", "c", "d", "e"]))
              (dedupFirst ["a", "b", "c", "d", "e"])) := by
      simp only [backward_elimination]
      exact backwardLoop_eq_fuel trainTest scoreTest _ _ _ 5 (by decide)
    rw [h]
    decide
  have hvars : (backward_elimination ["a", "b", "c", "d", "e"] t scoreTest).2
      = (backward_elimination ["a", "b", "c", "d", "e"] trainTest scoreTest).2 := by
    simp only [backward_elimination]
    exact backwardLoop_vars_blind t trainTest scoreTest scoreTest
      (fun _ _ _ => rfl) _ _ _ _
  have h2 : (backward_elimination ["a", "b", "c", "d", "e"] t scoreTest).2
      = ["a", "b", "d"] := by
    rw [hvars, hconc]
  have hm : (backward_elimination ["a", "b", "c", "d", "e"] t scoreTest).1
      = t (backward_elimination ["a", "b", "c", "d", "e"] t scoreTest).2 := by
    simp only [backward_elimination]
    exact backwardLoop_model_trained t scoreTest _ _ _ rfl
  refine ⟨h2, ?_, ?_⟩
  · rw [h2]
    decide
  · rw [hm, h2]

/-- C10 (amended): the results of `forward_selection` and
`backward_elimination` depend only on the deduplicated sequence of first
occurrences of the input names: duplicate occurrences are collapsed before
the initial training and do not affect the result.  (Dependence on the
*order* of the distinct names cannot be removed: see the counterexample,
where two inputs with the same set of distinct names but different order
give different results under score ties.) -/
theorem selection_collapses_duplicates (vars : List String) (t : List String → μ)
    (s : μ → List String → α) :
    forward_selection vars t s = forward_selection (dedupFirst vars) t s ∧
    backward_elimination vars t s = backward_elimination (dedupFirst vars) t s := by
  constructor
  · simp only [forward_selection, dedupFirst_idem]
  · simp only [backward_elimination, dedupFirst_idem]

/-- C10 counterexample: `["a", "b"]` and `["b", "a"]` have the same set of
distinct names, the scorer depends only on the size of the subset (so it is
insensitive to order), yet backward elimination returns different results —
the tie between the two removal candidates is broken by iteration order. -/
theorem backward_elimination_order_dependent :
    (["a", "b"] : List String).toFinset = (["b", "a"] : List String).toFinset ∧
    backward_elimination ["a", "b"] unitTrain pairTieScore
      ≠ backward_elimination ["b", "a"] unitTrain pairTieScore := by
  have h1 : backward_elimination ["a", "b"] unitTrain pairTieScore
      = backwardLoopFuel unitTrain pairTieScore 2 (dedupFirst ["a", "b"])
          (unitTrain (dedupFirst ["a", "b"]))
          (pairTieScore (unitTrain (dedupFirst ["a", "b"])) (dedupFirst ["a", "b"])) := by
    simp only [backward_elimination]
    exact backwardLoop_eq_fuel unitTrain pairTieScore _ _ _ 2 (by decide)
  have h2 : backward_elimination ["b", "a"] unitTrain pairTieScore
      = backwardLoopFuel unitTrain pairTieScore 2 (dedupFirst ["b", "a"])
          (unitTrain (dedupFirst ["b", "a"]))
          (pairTieScore (unitTrain (dedupFirst ["b", "a"])) (dedupFirst ["b", "a"])) := by
    simp only [backward_elimination]
    exact backwardLoop_eq_fuel unitTrain pairTieScore _ _ _ 2 (by decide)
  refine ⟨by decide, ?_⟩
  rw [h1, h2]
  decide
